import Mathlib

/-!
Shallow embedding of the libhal Conan recipes (`conanfile.py`, header-only
variant, and `v5/conanfile.py`, module-enabled variant).

Strings are modelled as `List Char`; Python `str.replace(old, new)` (with a
nonempty `old`) is modelled by `replaceAll`, a single left-to-right scan that
replaces non-overlapping occurrences and never rescans already-produced text,
exactly as CPython does.
-/

/-- Python `str.replace` with explicit fuel (the fuel is the length of the
scanned list, which strictly decreases at every step, so `replaceAll` below
always supplies enough).  `pat` is the substring searched for, `rep` the
replacement.  All patterns used by the recipe are nonempty literals. -/
def replaceAllF (pat rep : List Char) : Nat → List Char → List Char
  | 0, s => s
  | Nat.succ _, [] => []
  | Nat.succ n, c :: cs =>
    if (!pat.isEmpty && pat.isPrefixOf (c :: cs)) = true then
      rep ++ replaceAllF pat rep n (List.drop pat.length (c :: cs))
    else
      c :: replaceAllF pat rep n cs

/-- Python `content.replace(pat, rep)` for a nonempty `pat`. -/
def replaceAll (pat rep s : List Char) : List Char :=
  replaceAllF pat rep s.length s

/-- `containsSub pat s` is true iff `pat` occurs as a contiguous substring
of `s` (Python `pat in s`). -/
def containsSub (pat : List Char) : List Char → Bool
  | [] => pat.isEmpty
  | c :: cs => pat.isPrefixOf (c :: cs) || containsSub pat cs

/-- The build-tree subpath literal `"CMakeFiles/libhal.dir"` replaced by
rule 1 of the relocation (v5 `package_info`). -/
def cmakeFilesDir : List Char := "CMakeFiles/libhal.dir".toList

/-- The module-producing flag literal `"-fmodule-output"` replaced by rule 2. -/
def fmoduleOutput : List Char := "-fmodule-output".toList

/-- The compile-only directive line `"-x c++-module\n"` removed by rule 3
(note the trailing newline is part of the pattern). -/
def xCxxModuleNl : List Char := "-x c++-module\n".toList

/-- The directive text without its trailing newline. -/
def xCxxModule : List Char := "-x c++-module".toList

/-- The module-consuming flag `"-fmodule-file=hal"` substituted by rule 2. -/
def fmoduleFileHal : List Char := "-fmodule-file=hal".toList

/-- `str(Path(package_folder) / "modules")`: POSIX join of the (normalized)
package folder with `modules`. -/
def packageCmakeDir (packageFolder : List Char) : List Char :=
  packageFolder ++ "/modules".toList

/-- The three sequential substring rewrites of v5 `package_info`
(lines 220–225 of `src/v5/conanfile.py`):
`content.replace("CMakeFiles/libhal.dir", str(package_cmake_dir))
        .replace("-fmodule-output", "-fmodule-file=hal")
        .replace("-x c++-module\n", "")`. -/
def relocate (packageFolder content : List Char) : List Char :=
  replaceAll xCxxModuleNl []
    (replaceAll fmoduleOutput fmoduleFileHal
      (replaceAll cmakeFilesDir (packageCmakeDir packageFolder) content))

/-- Conan build settings as declared by both recipes
(`settings = "compiler", "build_type", "os", "arch"` plus the compiler
subsettings `compiler.version` and `compiler.cppstd`).  `cppstd` is the
numeric token the recipe compares (`none` when `compiler.cppstd` is unset,
mirroring `settings.get_safe("compiler.cppstd")` returning `None`). -/
structure BuildSettings where
  compiler : List Char
  compilerVersion : List Char
  cppstd : Option Nat
  buildType : List Char
  os : List Char
  arch : List Char
deriving DecidableEq

/-- The error taxonomy of the spec (§7).  `unresolvedReference` is declared
here because the spec names it (`RelocateError::UnresolvedReference`); the
recipes never construct it — `package_info` performs no post-condition path
check — which is what the C3 theorems record. -/
inductive RecipeError
  | unsupportedCompiler
  | versionTooLow
  | standardTooLow
  | fileNotFound
  | unresolvedReference
deriving DecidableEq

/-- Normalize a cppstd token to a comparable year:
98 ↦ 1998, 11/14/17/20/23/26 ↦ 2011… -/
def cppstdYear (v : Nat) : Nat :=
  if 90 ≤ v then 1900 + v else 2000 + v

/-- Modelled from the spec: the external collaborator
`conan.tools.build.check_min_cppstd(self, minimum)` (out of scope for the
source, §1/§6) raises when the configured `compiler.cppstd` is below the
recipe minimum; the spec maps that failure to
`CapabilityError::StandardTooLow`. -/
def check_min_cppstd (cur minimum : Nat) : Except RecipeError Unit :=
  if cppstdYear cur < cppstdYear minimum then .error .standardTooLow else .ok ()

/-- `validate` of `src/conanfile.py` (header-only variant, `_min_cppstd = "20"`):
`if self.settings.get_safe("compiler.cppstd"): check_min_cppstd(self, "20")`.
Note that it checks only the language standard; it never consults
`_compilers_minimum_version`. -/
def validate_header (s : BuildSettings) : Except RecipeError Unit :=
  match s.cppstd with
  | none => .ok ()
  | some std => check_min_cppstd std 20

/-- `validate` of `src/v5/conanfile.py` (module-enabled variant,
`_min_cppstd = "23"`).  Identical shape: only the cppstd is checked. -/
def validate_v5 (s : BuildSettings) : Except RecipeError Unit :=
  match s.cppstd with
  | none => .ok ()
  | some std => check_min_cppstd std 23

/-- `_compilers_minimum_version` of `src/conanfile.py`. -/
def compilersMinimumVersion_header : List (List Char × List Char) :=
  [("gcc".toList, "11".toList),
   ("clang".toList, "14".toList),
   ("apple-clang".toList, "14.0.0".toList)]

/-- `_compilers_minimum_version` of `src/v5/conanfile.py`
(comments in the source: "GCC 14+ for modules", "Clang 16+ for modules"). -/
def compilersMinimumVersion_v5 : List (List Char × List Char) :=
  [("gcc".toList, "14".toList),
   ("clang".toList, "16".toList),
   ("apple-clang".toList, "16.0.0".toList),
   ("msvc".toList, "193.4".toList)]

/-- Association lookup in a capability table. -/
def tableLookup (t : List (List Char × List Char)) (key : List Char) :
    Option (List Char) :=
  match t with
  | [] => none
  | (k, v) :: rest => if k = key then some v else tableLookup rest key

/-- Split a version string at the dots. -/
def splitDots : List Char → List (List Char)
  | [] => [[]]
  | c :: cs =>
    let rest := splitDots cs
    if c = '.' then [] :: rest
    else
      match rest with
      | [] => [[c]]
      | r :: rs => (c :: r) :: rs

/-- Numeric value of one version component. -/
def componentNat (s : List Char) : Nat :=
  s.foldl (fun n c => n * 10 + (c.toNat - 48)) 0

/-- Lexicographic comparison of numeric component lists; missing trailing
components count as zero (`"14.0" = "14"`): an exhausted left list is below
the right one exactly when some remaining right component is nonzero, and a
longer left list is never below an exhausted right one. -/
def componentsLt : List Nat → List Nat → Bool
  | [], ys => ys.any (fun y => 0 < y)
  | _ :: _, [] => false
  | x :: xs, y :: ys => (x < y) || ((x == y) && componentsLt xs ys)

/-- Modelled from the spec: the version-aware comparison §4.1 demands
("component-wise numeric comparison, not lexical string comparison");
the source defines the minimum-version tables but contains no comparison
code at all, so this definition exists only to state what the tables would
require. -/
def versionLt (a b : List Char) : Bool :=
  componentsLt ((splitDots a).map componentNat) ((splitDots b).map componentNat)

/-- `Path(self.package_folder) / "hal.cppm.o.modmap"`: the module-map file the
v5 `package_info` reads unconditionally from the package root. -/
def modMapFile (packageFolder : List Char) : List Char :=
  packageFolder ++ "/hal.cppm.o.modmap".toList

/-- The flag `f"@{mod_map_file}"` appended to `cpp_info.cxxflags`. -/
def atModMapFlag (packageFolder : List Char) : List Char :=
  '@' :: modMapFile packageFolder

/-- `package_cmake_dir / "hal.pcm"`: the packaged precompiled module
interface path. -/
def halPcm (packageFolder : List Char) : List Char :=
  packageCmakeDir packageFolder ++ "/hal.pcm".toList

/-- The flag `f"-fmodule-file=hal={hal_pcm}"` appended to
`cpp_info.cxxflags`. -/
def moduleFileFlag (packageFolder : List Char) : List Char :=
  "-fmodule-file=hal=".toList ++ halPcm packageFolder

/-- Outcome of v5 `package_info`: the consumer metadata it publishes, the
final module-map content, and whether the file was written back. -/
structure PackageInfoResult where
  libs : List (List Char)
  cxxflags : List (List Char)
  modMapContent : List Char
  wroteModMap : Bool
deriving DecidableEq

/-- `package_info` of `src/v5/conanfile.py` (lines 208–233).  The filesystem
is modelled by the optional content of `hal.cppm.o.modmap` at the package
root: `mod_map_file.read_text()` raises `FileNotFoundError` when the file is
absent, so no flags are published in that case.  When present, the three
rewrites run, the file is written back only when the content changed
(`if content != updated_content`), and the two consumer flags are appended.
No other error can be raised: in particular there is no post-condition
check of path resolvability. -/
def package_info_v5 (packageFolder : List Char) (modMap : Option (List Char)) :
    Except RecipeError PackageInfoResult :=
  match modMap with
  | none => .error .fileNotFound
  | some content =>
    let updated_content := relocate packageFolder content
    .ok { libs := ["libhal".toList]
          cxxflags := [atModMapFlag packageFolder, moduleFileFlag packageFolder]
          modMapContent := updated_content
          wroteModMap := !(content == updated_content) }

/-- The published `cxxflags` of a `package_info` outcome (empty when the
call raised). -/
def publishedFlags : Except RecipeError PackageInfoResult → List (List Char)
  | .ok r => r.cxxflags
  | .error _ => []

/-- Whether a `package_info` outcome completed without raising. -/
def finishedOk : Except RecipeError PackageInfoResult → Bool
  | .ok _ => true
  | .error _ => false

/-- Destination subdirectories used by the header-only `package`. -/
def licensesDir : List Char := "licenses".toList

/-- The `include` destination subdirectory. -/
def includeDir : List Char := "include".toList

/-- The `lib` destination subdirectory (used only by the v5 variant). -/
def libDir : List Char := "lib".toList

/-- The `modules` destination subdirectory (used only by the v5 variant). -/
def modulesDir : List Char := "modules".toList

/-- `package` of `src/conanfile.py` (header-only variant, lines 78–87):
copies `LICENSE` to `licenses`, and `*.h` / `*.hpp` from the source
`include` tree to `include`.  A source tree is modelled by the list of its
root files and the list of relative paths under `include/`; a Conan copy
pattern `*.h` matches a relative path iff it ends in `.h` (fnmatch `*`
crosses directory separators).  The result is the list of
(destination subdirectory, relative path) pairs copied. -/
def package_header (rootFiles includeFiles : List (List Char)) :
    List (List Char × List Char) :=
  (rootFiles.filter (fun f => f == "LICENSE".toList)).map (fun f => (licensesDir, f))
    ++ (includeFiles.filter (fun f => ".h".toList.isSuffixOf f)).map
        (fun f => (includeDir, f))
    ++ (includeFiles.filter (fun f => ".hpp".toList.isSuffixOf f)).map
        (fun f => (includeDir, f))

/-- The information a Conan package id is computed from, for this recipe:
the declared settings (all optional, `none` meaning cleared). -/
structure ConanInfo where
  compiler : Option (List Char)
  compilerVersion : Option (List Char)
  cppstd : Option Nat
  buildType : Option (List Char)
  os : Option (List Char)
  arch : Option (List Char)
deriving DecidableEq

/-- The info record as initially populated from the build settings. -/
def infoOfSettings (s : BuildSettings) : ConanInfo :=
  { compiler := some s.compiler
    compilerVersion := some s.compilerVersion
    cppstd := s.cppstd
    buildType := some s.buildType
    os := some s.os
    arch := some s.arch }

/-- `self.info.clear()`: removes every setting from the package id input. -/
def ConanInfo.clear (_ : ConanInfo) : ConanInfo :=
  { compiler := none, compilerVersion := none, cppstd := none
    buildType := none, os := none, arch := none }

/-- `package_id` of `src/conanfile.py` (lines 95–96): `self.info.clear()`. -/
def package_id_header (i : ConanInfo) : ConanInfo :=
  i.clear

/-- No nonempty first part of `p` (of length `k ≤ p.length`) occurs as a
final segment of `s`.  Together with `containsSub p s = false` this makes
`s` inert on its right edge: no occurrence of `p` can start inside `s` and
continue into whatever is appended after `s`. -/
def edgeFreeB (p s : List Char) : Bool :=
  (List.range (p.length + 1)).all (fun k => (k == 0) || !((p.take k).isSuffixOf s))

/-- `s` neither contains `p` nor ends with a nonempty first part of `p`. -/
def insulatedFor (p s : List Char) : Prop :=
  containsSub p s = false ∧ edgeFreeB p s = true

/-- `s` is insulated against all three relocation target substrings. -/
def insulated (s : List Char) : Prop :=
  insulatedFor cmakeFilesDir s ∧ insulatedFor fmoduleOutput s ∧
    insulatedFor xCxxModuleNl s

/-- The package folder is benign: the modules path spliced in by rule 1 is
itself insulated against the three target substrings (true of any ordinary
absolute path). -/
def goodPackageFolder (packageFolder : List Char) : Prop :=
  insulated (packageCmakeDir packageFolder)

/-- For every nonempty final segment `p.drop k` of `p`, its first two
characters fail to begin `t`: then no occurrence of `p` can end inside
`t ++ rest`, for any `rest`. -/
def frontFreeB (p t : List Char) : Bool :=
  (List.range p.length).all
    (fun k => (k == 0) || !(((p.drop k).take 2).isPrefixOf (t.take 2)))

/-- `t` has no nonempty proper border (no proper nonempty first part of `t`
is also a final segment of `t`). -/
def bordersFreeB (t : List Char) : Bool :=
  (List.range t.length).all (fun k => (k == 0) || !((t.take k).isSuffixOf t))

/-- Demo package folder used by the closed witness/counterexample theorems. -/
def pfDemo : List Char := "/p".toList

/-- Content on which relocation is not idempotent: deleting the middle
directive line splices the surrounding text into a fresh directive line,
which a second relocation then also deletes. -/
def c1CexContent : List Char := "-x c+-x c++-module\n+-module\n".toList

/-- A realistic module-map content: the compile-only directive line followed
by a module-output flag pointing into the build tree. -/
def modMapDemo : List Char :=
  "-x c++-module\n-fmodule-output=CMakeFiles/libhal.dir/hal.pcm\n".toList

/-- Content containing all three target substrings on which the relocated
output still contains the build-tree substring: deleting the directive line
splices `CMakeFiles/libhal` and `.dir` into a fresh occurrence. -/
def c2CexContent : List Char :=
  "CMakeFiles/libhal.dir -fmodule-output CMakeFiles/libhal-x c++-module\n.dir".toList

/-- Content containing none of the three target substrings, whose single
path reference (`/no/such/path`) resolves to nothing inside the package
layout. -/
def c3Content : List Char := "@/no/such/path\n".toList

/-! ### Basic list facts -/

theorem isPrefixOf_ex {x : List Char} :
    ∀ {y : List Char}, x.isPrefixOf y = true → ∃ w, y = x ++ w := by
  induction x with
  | nil => intro y _; exact ⟨y, rfl⟩
  | cons a as ih =>
    intro y h
    match y with
    | [] => simp [List.isPrefixOf] at h
    | b :: bs =>
      simp only [List.isPrefixOf, Bool.and_eq_true, beq_iff_eq] at h
      obtain ⟨w, hw⟩ := ih h.2
      exact ⟨w, by simp [h.1, hw]⟩

theorem isPrefixOf_app (x w : List Char) : x.isPrefixOf (x ++ w) = true := by
  induction x with
  | nil => simp [List.isPrefixOf]
  | cons a as ih => simp [List.isPrefixOf, ih]

theorem length_le_of_isPrefixOf {x y : List Char} (h : x.isPrefixOf y = true) :
    x.length ≤ y.length := by
  obtain ⟨w, hw⟩ := isPrefixOf_ex h
  simp [hw]

theorem takeApp_le : ∀ (n : Nat) (u T : List Char), n ≤ u.length →
    (u ++ T).take n = u.take n := by
  intro n
  induction n with
  | zero => intro u T _; simp
  | succ m ih =>
    intro u T h
    match u with
    | [] => simp at h
    | c :: cs =>
      simp only [List.cons_append, List.take_succ_cons]
      rw [ih cs T (Nat.le_of_succ_le_succ h)]

theorem takeApp_len (u T : List Char) : (u ++ T).take u.length = u := by
  rw [takeApp_le u.length u T le_rfl, List.take_length]

theorem dropApp_len : ∀ (u T : List Char), (u ++ T).drop u.length = T := by
  intro u
  induction u with
  | nil => intro T; rfl
  | cons c cs ih => intro T; simp only [List.cons_append, List.length_cons,
      List.drop_succ_cons]; exact ih T

theorem dropApp_le : ∀ (n : Nat) (u T : List Char), n ≤ u.length →
    (u ++ T).drop n = u.drop n ++ T := by
  intro n
  induction n with
  | zero => intro u T _; simp
  | succ m ih =>
    intro u T h
    match u with
    | [] => simp at h
    | c :: cs =>
      simp only [List.cons_append, List.drop_succ_cons]
      exact ih cs T (Nat.le_of_succ_le_succ h)

theorem takeAgree {p z u T : List Char} (h : p.isPrefixOf z = true)
    (hz : z = u ++ T) (hu : u.length ≤ p.length) : p.take u.length = u := by
  obtain ⟨w, hw⟩ := isPrefixOf_ex h
  have h1 : (u ++ T).take u.length = (p ++ w).take u.length := by
    rw [← hz, ← hw]
  rw [takeApp_len, takeApp_le u.length p w hu] at h1
  exact h1.symm

theorem suffix_cons {u cs : List Char} (c : Char) (h : u <:+ cs) :
    u <:+ c :: cs := by
  obtain ⟨w, hw⟩ := h
  exact ⟨c :: w, by simp [hw]⟩

theorem suffix_trans {u v s : List Char} (h1 : u <:+ v) (h2 : v <:+ s) :
    u <:+ s := by
  obtain ⟨w1, hw1⟩ := h1
  obtain ⟨w2, hw2⟩ := h2
  exact ⟨w2 ++ w1, by rw [List.append_assoc, hw1, hw2]⟩

theorem drop_suffix (n : Nat) (s : List Char) : s.drop n <:+ s :=
  ⟨s.take n, List.take_append_drop n s⟩

theorem suffix_len_eq {u y : List Char} (h : u <:+ y)
    (hl : u.length = y.length) : u = y := by
  obtain ⟨w, hw⟩ := h
  have : w.length + u.length = y.length := by
    rw [← hw]; simp
  have hw0 : w.length = 0 := by omega
  have : w = [] := List.eq_nil_of_length_eq_zero hw0
  simpa [this] using hw

theorem isSuffixOf_of_suffix {u s : List Char} (h : u <:+ s) :
    u.isSuffixOf s = true := by
  obtain ⟨w, hw⟩ := h
  have : s.reverse = u.reverse ++ w.reverse := by
    rw [← hw, List.reverse_append]
  simp only [List.isSuffixOf, this]
  exact isPrefixOf_app _ _

theorem suffix_of_isSuffixOf {u s : List Char} (h : u.isSuffixOf s = true) :
    u <:+ s := by
  simp only [List.isSuffixOf] at h
  obtain ⟨w, hw⟩ := isPrefixOf_ex h
  refine ⟨w.reverse, ?_⟩
  have := congrArg List.reverse hw
  simpa using this.symm

theorem takeLe_isPrefixOf (x : List Char) {a b : Nat} (h : a ≤ b) :
    (x.take a).isPrefixOf (x.take b) = true := by
  have h1 : (x.take b).take a = x.take a := by
    rw [List.take_take a b x, Nat.min_eq_left h]
  have h2 : (x.take b).take a ++ (x.take b).drop a = x.take b :=
    List.take_append_drop a (x.take b)
  rw [h1] at h2
  rw [← h2]
  exact isPrefixOf_app _ _

theorem stripSame : ∀ (x y z : List Char),
    (x ++ y).isPrefixOf (x ++ z) = y.isPrefixOf z := by
  intro x
  induction x with
  | nil => intro y z; rfl
  | cons a as ih => intro y z; simp [List.isPrefixOf, ih]

/-! ### Facts about `containsSub` -/

theorem containsSub_of_isPrefixOf {p s : List Char}
    (h : p.isPrefixOf s = true) : containsSub p s = true := by
  match s with
  | [] =>
    match p with
    | [] => rfl
    | a :: as => simp [List.isPrefixOf] at h
  | c :: cs => simp [containsSub, h]

theorem containsSub_tail {p : List Char} {c : Char} {cs : List Char}
    (h : containsSub p (c :: cs) = false) : containsSub p cs = false := by
  simp only [containsSub, Bool.or_eq_false_iff] at h
  exact h.2

theorem not_isPrefixOf_of_not_contains {p : List Char} {c : Char}
    {cs : List Char} (h : containsSub p (c :: cs) = false) :
    p.isPrefixOf (c :: cs) = false := by
  simp only [containsSub, Bool.or_eq_false_iff] at h
  exact h.1

theorem containsSub_middle : ∀ (x p y : List Char),
    containsSub p (x ++ (p ++ y)) = true := by
  intro x
  induction x with
  | nil =>
    intro p y
    simp only [List.nil_append]
    exact containsSub_of_isPrefixOf (isPrefixOf_app p y)
  | cons c cs ih =>
    intro p y
    simp only [List.cons_append, containsSub, Bool.or_eq_true]
    exact Or.inr (ih p y)

/-! ### Unfolding equations for `replaceAll` -/

theorem replaceAllF_nil (p r : List Char) : ∀ n, replaceAllF p r n [] = [] := by
  intro n
  cases n with
  | zero => rfl
  | succ m => rfl

theorem replaceAllF_fuel (p r : List Char) : ∀ (n : Nat), ∀ {m : Nat}
    {s : List Char}, s.length ≤ n → s.length ≤ m →
    replaceAllF p r n s = replaceAllF p r m s := by
  intro n
  induction n with
  | zero =>
    intro m s hn _
    have : s = [] := List.eq_nil_of_length_eq_zero (Nat.le_zero.mp hn)
    subst this
    rw [replaceAllF_nil, replaceAllF_nil]
  | succ k ih =>
    intro m s hn hm
    match s with
    | [] => rw [replaceAllF_nil, replaceAllF_nil]
    | c :: cs =>
      match m with
      | 0 => exact absurd hm (by simp)
      | Nat.succ m' =>
        show replaceAllF p r (k + 1) (c :: cs) = replaceAllF p r (m' + 1) (c :: cs)
        simp only [replaceAllF]
        by_cases hc : (!p.isEmpty && p.isPrefixOf (c :: cs)) = true
        · rw [if_pos hc, if_pos hc]
          have hp : 1 ≤ p.length := by
            rcases Bool.and_eq_true _ _ |>.mp hc with ⟨h1, _⟩
            cases p with
            | nil => simp at h1
            | cons a as => simp
          have hlen : (List.drop p.length (c :: cs)).length ≤ cs.length := by
            simp only [List.length_drop, List.length_cons]
            omega
          have h1 : (List.drop p.length (c :: cs)).length ≤ k := by
            have : cs.length ≤ k := Nat.le_of_succ_le_succ hn
            omega
          have h2 : (List.drop p.length (c :: cs)).length ≤ m' := by
            have : cs.length ≤ m' := Nat.le_of_succ_le_succ hm
            omega
          rw [ih h1 h2]
        · rw [if_neg hc, if_neg hc]
          have h1 : cs.length ≤ k := Nat.le_of_succ_le_succ hn
          have h2 : cs.length ≤ m' := Nat.le_of_succ_le_succ hm
          rw [ih h1 h2]

theorem replaceAll_cons (p r : List Char) (c : Char) (cs : List Char) :
    replaceAll p r (c :: cs) =
      if (!p.isEmpty && p.isPrefixOf (c :: cs)) = true then
        r ++ replaceAll p r (List.drop p.length (c :: cs))
      else
        c :: replaceAll p r cs := by
  show replaceAllF p r (cs.length + 1) (c :: cs) = _
  simp only [replaceAllF]
  by_cases hc : (!p.isEmpty && p.isPrefixOf (c :: cs)) = true
  · rw [if_pos hc, if_pos hc]
    have hp : 1 ≤ p.length := by
      rcases Bool.and_eq_true _ _ |>.mp hc with ⟨h1, _⟩
      cases p with
      | nil => simp at h1
      | cons a as => simp
    have h1 : (List.drop p.length (c :: cs)).length ≤ cs.length := by
      simp only [List.length_drop, List.length_cons]
      omega
    rw [replaceAllF_fuel p r cs.length h1 le_rfl]
    rfl
  · rw [if_neg hc, if_neg hc]
    rfl

theorem replaceAll_of_not_contains {p : List Char} (r : List Char) :
    ∀ {s : List Char}, containsSub p s = false → replaceAll p r s = s := by
  intro s
  induction s with
  | nil => intro _; rfl
  | cons c cs ih =>
    intro h
    rw [replaceAll_cons]
    have hpf : p.isPrefixOf (c :: cs) = false := not_isPrefixOf_of_not_contains h
    rw [if_neg (by simp [hpf])]
    rw [ih (containsSub_tail h)]

theorem replaceAll_fire {p : List Char} (r y : List Char) (hp : p ≠ []) :
    replaceAll p r (p ++ y) = r ++ replaceAll p r y := by
  match p, hp with
  | a :: as, _ =>
    show replaceAll (a :: as) r (a :: (as ++ y)) = _
    rw [replaceAll_cons]
    have hpre : (a :: as).isPrefixOf (a :: as ++ y) = true := isPrefixOf_app _ _
    rw [if_pos (by simp only [List.isEmpty_cons, Bool.not_false,
      Bool.true_and, List.cons_append]; exact hpre)]
    have : List.drop (a :: as).length (a :: (as ++ y)) = y := by
      have h := dropApp_len (a :: as) y
      simp only [List.cons_append] at h
      exact h
    rw [this]

theorem replaceAll_append_aux (p r t : List Char) : ∀ (n : Nat) (s : List Char),
    s.length ≤ n →
    (∀ u, u <:+ s → u ≠ [] → u.length < p.length →
      p.isPrefixOf (u ++ t) = false) →
    replaceAll p r (s ++ t) = replaceAll p r s ++ replaceAll p r t := by
  intro n
  induction n with
  | zero =>
    intro s hs _
    have : s = [] := List.eq_nil_of_length_eq_zero (Nat.le_zero.mp hs)
    subst this
    rfl
  | succ k ih =>
    intro s hs hsplit
    match s with
    | [] => rfl
    | c :: cs =>
      have hcond : p.isPrefixOf (c :: cs ++ t) = p.isPrefixOf (c :: cs) := by
        by_cases hps : p.isPrefixOf (c :: cs) = true
        · obtain ⟨w, hw⟩ := isPrefixOf_ex hps
          have : c :: cs ++ t = p ++ (w ++ t) := by
            rw [← List.append_assoc, ← hw]
          rw [hps, this]
          exact isPrefixOf_app p (w ++ t)
        · rw [Bool.eq_false_iff.mpr hps]
          by_cases hx : p.isPrefixOf (c :: cs ++ t) = true
          · by_cases hl : p.length ≤ (c :: cs).length
            · exfalso
              obtain ⟨w, hw⟩ := isPrefixOf_ex hx
              have hto : (c :: cs ++ t).take p.length = p := by
                rw [hw, takeApp_len]
              rw [takeApp_le p.length (c :: cs) t hl] at hto
              have : (c :: cs) = p ++ (c :: cs).drop p.length := by
                conv_lhs => rw [← List.take_append_drop p.length (c :: cs)]
                rw [hto]
              exact hps (by rw [this]; exact isPrefixOf_app _ _)
            · exfalso
              have := hsplit (c :: cs) ⟨[], rfl⟩ (by simp)
                (by omega)
              rw [this] at hx
              exact Bool.false_ne_true hx
          · exact Bool.eq_false_iff.mpr hx
      by_cases hc : (!p.isEmpty && p.isPrefixOf (c :: cs)) = true
      · have hc' : (!p.isEmpty && p.isPrefixOf (c :: cs ++ t)) = true := by
          rw [hcond]; exact hc
        rw [show (c :: cs) ++ t = c :: (cs ++ t) from rfl] at hc' ⊢
        rw [replaceAll_cons p r c (cs ++ t), if_pos hc',
          replaceAll_cons p r c cs, if_pos hc]
        rcases Bool.and_eq_true _ _ |>.mp hc with ⟨hne, hpre⟩
        have hpne : p ≠ [] := by
          cases p with
          | nil => simp at hne
          | cons a as => simp
        have hple : p.length ≤ (c :: cs).length := length_le_of_isPrefixOf hpre
        have hdrop : List.drop p.length (c :: (cs ++ t)) =
            List.drop p.length (c :: cs) ++ t := by
          have := dropApp_le p.length (c :: cs) t hple
          simpa using this
        rw [hdrop]
        have hlen : (List.drop p.length (c :: cs)).length ≤ k := by
          have hp1 : 1 ≤ p.length := by
            cases p with
            | nil => exact absurd rfl hpne
            | cons a as => simp
          simp only [List.length_drop, List.length_cons]
          have : cs.length + 1 ≤ k + 1 := hs
          omega
        rw [ih (List.drop p.length (c :: cs)) hlen
          (fun u hu hne' hlt => hsplit u
            (suffix_trans hu (drop_suffix p.length (c :: cs))) hne' hlt)]
        rw [List.append_assoc]
      · have hc' : ¬ (!p.isEmpty && p.isPrefixOf (c :: cs ++ t)) = true := by
          rw [hcond]; exact hc
        rw [show (c :: cs) ++ t = c :: (cs ++ t) from rfl] at hc' ⊢
        rw [replaceAll_cons p r c (cs ++ t), if_neg hc',
          replaceAll_cons p r c cs, if_neg hc]
        rw [ih cs (Nat.le_of_succ_le_succ hs)
          (fun u hu hne' hlt => hsplit u (suffix_cons c hu) hne' hlt)]
        rfl

theorem replaceAll_append {p : List Char} (r : List Char) {s t : List Char}
    (hsplit : ∀ u, u <:+ s → u ≠ [] → u.length < p.length →
      p.isPrefixOf (u ++ t) = false) :
    replaceAll p r (s ++ t) = replaceAll p r s ++ replaceAll p r t :=
  replaceAll_append_aux p r t s.length s le_rfl hsplit

/-! ### Insulated segments -/

theorem edgeFree_no_suffix {p s : List Char} (h : edgeFreeB p s = true) :
    ∀ k, 0 < k → k ≤ p.length → ¬ (p.take k <:+ s) := by
  intro k hk hkp hsuf
  have hmem : k ∈ List.range (p.length + 1) := List.mem_range.mpr (by omega)
  have := List.all_eq_true.mp h k hmem
  rcases Bool.or_eq_true _ _ |>.mp this with h0 | hns
  · have : k = 0 := beq_iff_eq.mp h0
    omega
  · rw [isSuffixOf_of_suffix hsuf] at hns
    simp at hns

theorem insul_tail {p : List Char} {c : Char} {cs : List Char}
    (h : insulatedFor p (c :: cs)) : insulatedFor p cs := by
  refine ⟨containsSub_tail h.1, ?_⟩
  refine List.all_eq_true.mpr ?_
  intro k hmem
  rcases Bool.or_eq_true _ _ |>.mp (List.all_eq_true.mp h.2 k hmem) with h0 | hns
  · exact Bool.or_eq_true _ _ |>.mpr (Or.inl h0)
  · refine Bool.or_eq_true _ _ |>.mpr (Or.inr ?_)
    simp only [Bool.not_eq_true'] at hns ⊢
    by_cases hx : (p.take k).isSuffixOf cs = true
    · exfalso
      have hsuf : p.take k <:+ c :: cs := suffix_cons c (suffix_of_isSuffixOf hx)
      rw [isSuffixOf_of_suffix hsuf] at hns
      exact Bool.false_ne_true hns.symm
    · exact Bool.eq_false_iff.mpr hx

theorem insul_splitHyp {p L : List Char} (h : insulatedFor p L) (T : List Char) :
    ∀ u, u <:+ L → u ≠ [] → u.length < p.length →
      p.isPrefixOf (u ++ T) = false := by
  intro u hu hne hlt
  by_cases hx : p.isPrefixOf (u ++ T) = true
  · exfalso
    have hagree : p.take u.length = u := takeAgree hx rfl (le_of_lt hlt)
    have hupos : 0 < u.length := List.length_pos.mpr hne
    have := edgeFree_no_suffix h.2 u.length hupos (le_of_lt hlt)
    rw [hagree] at this
    exact this hu
  · exact Bool.eq_false_iff.mpr hx

theorem replaceAll_left {p L : List Char} (r : List Char) (T : List Char)
    (h : insulatedFor p L) :
    replaceAll p r (L ++ T) = L ++ replaceAll p r T := by
  rw [replaceAll_append r (insul_splitHyp h T),
    replaceAll_of_not_contains r h.1]

theorem contains_append_insul {p : List Char} :
    ∀ {x : List Char}, insulatedFor p x → ∀ {y : List Char},
    containsSub p y = false → containsSub p (x ++ y) = false := by
  intro x
  induction x with
  | nil => intro _ y hy; exact hy
  | cons c cs ih =>
    intro hx y hy
    show containsSub p (c :: (cs ++ y)) = false
    simp only [containsSub, Bool.or_eq_false_iff]
    constructor
    · by_cases hpre : p.isPrefixOf (c :: (cs ++ y)) = true
      · exfalso
        by_cases hl : p.length ≤ (c :: cs).length
        · have hto : (c :: (cs ++ y)).take p.length = p := by
            obtain ⟨w, hw⟩ := isPrefixOf_ex hpre
            rw [hw, takeApp_len]
          have hto2 : (c :: cs ++ y).take p.length = (c :: cs).take p.length :=
            takeApp_le p.length (c :: cs) y hl
          simp only [List.cons_append] at hto2
          rw [hto2] at hto
          have hsplit : (c :: cs) = p ++ (c :: cs).drop p.length := by
            conv_lhs => rw [← List.take_append_drop p.length (c :: cs)]
            rw [hto]
          have : containsSub p (c :: cs) = true :=
            containsSub_of_isPrefixOf (by rw [hsplit]; exact isPrefixOf_app _ _)
          rw [hx.1] at this
          exact Bool.false_ne_true this
        · have hlt : (c :: cs).length < p.length := by omega
          have hagree : p.take (c :: cs).length = c :: cs :=
            takeAgree hpre (List.cons_append c cs y).symm (le_of_lt hlt)
          have := edgeFree_no_suffix hx.2 (c :: cs).length (by simp)
            (le_of_lt hlt)
          rw [hagree] at this
          exact this ⟨[], rfl⟩
      · exact Bool.eq_false_iff.mpr hpre
    · exact ih (insul_tail hx) hy

theorem front_splitHyp {p t : List Char} (hf : frontFreeB p t = true)
    (ht : 2 ≤ t.length) (rest : List Char) :
    ∀ u, u ≠ [] → u.length < p.length →
      p.isPrefixOf (u ++ (t ++ rest)) = false := by
  intro u hne hlt
  by_cases hx : p.isPrefixOf (u ++ (t ++ rest)) = true
  · exfalso
    have hagree : p.take u.length = u := takeAgree hx rfl (le_of_lt hlt)
    obtain ⟨w, hw⟩ := isPrefixOf_ex hx
    have hvw : t ++ rest = p.drop u.length ++ w := by
      have h1 : (u ++ (t ++ rest)).drop u.length = t ++ rest :=
        dropApp_len u (t ++ rest)
      have h2 : (u ++ (t ++ rest)).drop u.length =
          p.drop u.length ++ w := by
        rw [hw]
        have hsplit : p ++ w = u ++ (p.drop u.length ++ w) := by
          conv_lhs => rw [← List.take_append_drop u.length p, hagree]
          rw [List.append_assoc]
        rw [hsplit, dropApp_len]
      rw [← h1, h2]
    have hvtake : (p.drop u.length).take 2 =
        (t ++ rest).take (min 2 (p.drop u.length).length) := by
      have : p.drop u.length = (t ++ rest).take (p.drop u.length).length := by
        rw [hvw, takeApp_len]
      conv_lhs => rw [this]
      rw [List.take_take]
    have hpre2 : ((p.drop u.length).take 2).isPrefixOf ((t ++ rest).take 2)
        = true := by
      rw [hvtake]
      exact takeLe_isPrefixOf (t ++ rest) (Nat.min_le_left 2 _)
    rw [takeApp_le 2 t rest ht] at hpre2
    have hupos : 0 < u.length := List.length_pos.mpr hne
    have hmem : u.length ∈ List.range p.length := List.mem_range.mpr hlt
    rcases Bool.or_eq_true _ _ |>.mp (List.all_eq_true.mp hf u.length hmem)
      with h0 | hns
    · have : u.length = 0 := beq_iff_eq.mp h0
      omega
    · simp only [Bool.not_eq_true'] at hns
      rw [hpre2] at hns
      exact Bool.false_ne_true hns.symm
  · exact Bool.eq_false_iff.mpr hx

/-! ### The directive boundary -/

theorem dir_pattern_split : xCxxModuleNl = xCxxModule ++ ['\n'] := by decide

theorem dir_borders : bordersFreeB xCxxModule = true := by decide

theorem dirSplitHyp {b : List Char} (hb : b.head? ≠ some '\n') :
    ∀ u, u <:+ xCxxModule → u ≠ [] → u.length < xCxxModuleNl.length →
      xCxxModuleNl.isPrefixOf (u ++ b) = false := by
  intro u hu hne hlt
  by_cases hx : xCxxModuleNl.isPrefixOf (u ++ b) = true
  · exfalso
    have hagree : xCxxModuleNl.take u.length = u := takeAgree hx rfl (le_of_lt hlt)
    have hu13 : u.length ≤ xCxxModule.length := by
      obtain ⟨w, hw⟩ := hu
      have : w.length + u.length = xCxxModule.length := by
        rw [← hw]; simp
      omega
    by_cases h13 : u.length = xCxxModule.length
    · have hut : u = xCxxModule := suffix_len_eq hu h13
      subst hut
      rw [dir_pattern_split, stripSame] at hx
      match b, hx with
      | c :: cs, hx =>
        simp only [List.isPrefixOf, Bool.and_eq_true, beq_iff_eq] at hx
        exact hb (by simp [← hx.1])
    · have hklt : u.length < xCxxModule.length := by omega
      have htake : xCxxModuleNl.take u.length = xCxxModule.take u.length := by
        rw [dir_pattern_split]
        exact takeApp_le u.length xCxxModule ['\n'] hu13
      have hu_eq : u = xCxxModule.take u.length := hagree.symm.trans htake
      have hmem : u.length ∈ List.range xCxxModule.length :=
        List.mem_range.mpr hklt
      rcases Bool.or_eq_true _ _ |>.mp
        (List.all_eq_true.mp dir_borders u.length hmem) with h0 | hns
      · have : u.length = 0 := beq_iff_eq.mp h0
        exact hne (List.eq_nil_of_length_eq_zero this)
      · simp only [Bool.not_eq_true'] at hns
        rw [← hu_eq] at hns
        rw [isSuffixOf_of_suffix hu] at hns
        exact Bool.false_ne_true hns.symm
  · exact Bool.eq_false_iff.mpr hx

/-! ### Head tracking through the rewrites -/

theorem replaceAll_head (p r s : List Char) :
    replaceAll p r s = [] ∨ (∃ z, replaceAll p r s = r ++ z) ∨
      (replaceAll p r s).head? = s.head? := by
  match s with
  | [] => exact Or.inl rfl
  | c :: cs =>
    rw [replaceAll_cons]
    by_cases hc : (!p.isEmpty && p.isPrefixOf (c :: cs)) = true
    · rw [if_pos hc]
      exact Or.inr (Or.inl ⟨_, rfl⟩)
    · rw [if_neg hc]
      exact Or.inr (Or.inr rfl)

theorem pkgDir_head_ne_nl {packageFolder : List Char}
    (hpf : packageFolder.head? ≠ some '\n') (z : List Char) :
    (packageCmakeDir packageFolder ++ z).head? ≠ some '\n' := by
  match packageFolder with
  | [] => simp [packageCmakeDir]
  | c :: cs =>
    intro h
    simp only [packageCmakeDir, List.cons_append, List.head?_cons,
      Option.some.injEq] at h
    exact hpf (by simp [h])

theorem stage2_head_ne_nl {b packageFolder : List Char}
    (hb : b.head? ≠ some '\n') (hpf : packageFolder.head? ≠ some '\n') :
    (replaceAll fmoduleOutput fmoduleFileHal
      (replaceAll cmakeFilesDir (packageCmakeDir packageFolder) b)).head?
      ≠ some '\n' := by
  have hX : (replaceAll cmakeFilesDir (packageCmakeDir packageFolder) b).head?
      ≠ some '\n' := by
    rcases replaceAll_head cmakeFilesDir (packageCmakeDir packageFolder) b with
      h | ⟨z, hz⟩ | h
    · rw [h]; simp
    · rw [hz]; exact pkgDir_head_ne_nl hpf z
    · rw [h]; exact hb
  rcases replaceAll_head fmoduleOutput fmoduleFileHal
    (replaceAll cmakeFilesDir (packageCmakeDir packageFolder) b) with
    h | ⟨z, hz⟩ | h
  · rw [h]; simp
  · rw [hz]
    have hcons : fmoduleFileHal = '-' :: "fmodule-file=hal".toList := by
      decide
    rw [hcons]
    simp
  · rw [h]; exact hX

/-! ### Concrete insulation facts about the literals -/

theorem insul_cmake_fmo : insulatedFor cmakeFilesDir fmoduleOutput :=
  ⟨by decide, by decide⟩

theorem insul_cmake_dirline : insulatedFor cmakeFilesDir xCxxModuleNl :=
  ⟨by decide, by decide⟩

theorem insul_fmo_dirline : insulatedFor fmoduleOutput xCxxModuleNl :=
  ⟨by decide, by decide⟩

theorem insul_cmake_halflag : insulatedFor cmakeFilesDir fmoduleFileHal :=
  ⟨by decide, by decide⟩

theorem insul_dirline_halflag : insulatedFor xCxxModuleNl fmoduleFileHal :=
  ⟨by decide, by decide⟩

theorem insul_cmake_dirword : insulatedFor cmakeFilesDir xCxxModule :=
  ⟨by decide, by decide⟩

theorem insul_fmo_dirword : insulatedFor fmoduleOutput xCxxModule :=
  ⟨by decide, by decide⟩

theorem front_cmake_dirword : frontFreeB cmakeFilesDir xCxxModule = true := by
  decide

theorem front_fmo_dirword : frontFreeB fmoduleOutput xCxxModule = true := by
  decide

theorem front_dirline_dirword : frontFreeB xCxxModuleNl xCxxModule = true := by
  decide

theorem front_cmake_dirline : frontFreeB cmakeFilesDir xCxxModuleNl = true := by
  decide

theorem front_fmo_dirline : frontFreeB fmoduleOutput xCxxModuleNl = true := by
  decide

theorem front_dirline_dirline : frontFreeB xCxxModuleNl xCxxModuleNl = true := by
  decide

theorem contains_dirline_dirword : containsSub xCxxModuleNl xCxxModule = false := by
  decide

/-! ### Behaviour of `relocate` around the directive text -/

theorem relocate_append_dirword (pf a b : List Char)
    (hb : b.head? ≠ some '\n') (hpf : pf.head? ≠ some '\n') :
    relocate pf (a ++ (xCxxModule ++ b)) =
      relocate pf a ++ (xCxxModule ++ relocate pf b) := by
  simp only [relocate]
  rw [replaceAll_append (packageCmakeDir pf)
    (fun u _ hne hlt => front_splitHyp front_cmake_dirword (by decide) b u hne hlt)]
  rw [replaceAll_left (packageCmakeDir pf) b insul_cmake_dirword]
  rw [replaceAll_append fmoduleFileHal
    (fun u _ hne hlt => front_splitHyp front_fmo_dirword (by decide)
      (replaceAll cmakeFilesDir (packageCmakeDir pf) b) u hne hlt)]
  rw [replaceAll_left fmoduleFileHal _ insul_fmo_dirword]
  rw [replaceAll_append []
    (fun u _ hne hlt => front_splitHyp front_dirline_dirword (by decide)
      (replaceAll fmoduleOutput fmoduleFileHal
        (replaceAll cmakeFilesDir (packageCmakeDir pf) b)) u hne hlt)]
  rw [replaceAll_append [] (dirSplitHyp (stage2_head_ne_nl hb hpf))]
  rw [replaceAll_of_not_contains [] contains_dirline_dirword]

theorem relocate_append_dirline (pf a b : List Char) :
    relocate pf (a ++ (xCxxModuleNl ++ b)) = relocate pf a ++ relocate pf b := by
  simp only [relocate]
  rw [replaceAll_append (packageCmakeDir pf)
    (fun u _ hne hlt => front_splitHyp front_cmake_dirline (by decide) b u hne hlt)]
  rw [replaceAll_left (packageCmakeDir pf) b insul_cmake_dirline]
  rw [replaceAll_append fmoduleFileHal
    (fun u _ hne hlt => front_splitHyp front_fmo_dirline (by decide)
      (replaceAll cmakeFilesDir (packageCmakeDir pf) b) u hne hlt)]
  rw [replaceAll_left fmoduleFileHal _ insul_fmo_dirline]
  rw [replaceAll_append []
    (fun u _ hne hlt => front_splitHyp front_dirline_dirline (by decide)
      (replaceAll fmoduleOutput fmoduleFileHal
        (replaceAll cmakeFilesDir (packageCmakeDir pf) b)) u hne hlt)]
  rw [replaceAll_fire [] _ (by decide)]
  rw [List.nil_append]

/-! ### Claim theorems -/

/-- C9: the header-only `package_id` clears the settings information, so the
package identity input is the same for any two build-settings tuples
(compiler family, version, standard, build type, OS, architecture). -/
theorem package_id_settings_independent (s1 s2 : BuildSettings) :
    package_id_header (infoOfSettings s1) = package_id_header (infoOfSettings s2) :=
  rfl

/-- C8: the v5 `package_info` reads `hal.cppm.o.modmap` from the package root
unconditionally; whenever that file is absent it raises the file-not-found
error and publishes no consumer flags, rather than skipping relocation. -/
theorem package_info_missing_modmap_errors (pf : List Char) :
    package_info_v5 pf none = .error .fileNotFound ∧
      publishedFlags (package_info_v5 pf none) = [] :=
  ⟨rfl, rfl⟩

/-- C6: the relocation step writes the module-map file back exactly when the
rewritten content differs from the original content (the source guards the
write with `if content != updated_content`); in particular an unchanged
content is not rewritten. -/
theorem package_info_write_iff_changed (pf c : List Char) :
    package_info_v5 pf (some c) =
      .ok { libs := ["libhal".toList]
            cxxflags := [atModMapFlag pf, moduleFileFlag pf]
            modMapContent := relocate pf c
            wroteModMap := !(c == relocate pf c) }
    ∧ ((!(c == relocate pf c)) = true ↔ relocate pf c ≠ c) := by
  refine ⟨rfl, ?_⟩
  rw [Bool.not_eq_true', beq_eq_false_iff_ne]
  exact ne_comm

/-- C5: for any package folder and any present module-map content, the
published consumer flag list contains exactly one flag beginning with
`-fmodule-file=`, and that flag is `-fmodule-file=hal=` followed by the
packaged precompiled module interface path (the package modules directory
joined with `hal.pcm`). -/
theorem package_info_single_module_file_flag (pf c : List Char) :
    (publishedFlags (package_info_v5 pf (some c))).filter
        (fun f => "-fmodule-file=".toList.isPrefixOf f) = [moduleFileFlag pf]
    ∧ moduleFileFlag pf =
        "-fmodule-file=hal=".toList ++ (packageCmakeDir pf ++ "/hal.pcm".toList) := by
  constructor
  · show (List.filter _ [atModMapFlag pf, moduleFileFlag pf]) = _
    have hat : "-fmodule-file=".toList.isPrefixOf (atModMapFlag pf) = false := by
      have h1 : "-fmodule-file=".toList = '-' :: "fmodule-file=".toList := by decide
      rw [h1]
      simp [atModMapFlag, List.isPrefixOf]
    have hmf : "-fmodule-file=".toList.isPrefixOf (moduleFileFlag pf) = true := by
      have h2 : moduleFileFlag pf =
          "-fmodule-file=".toList ++ ("hal=".toList ++ halPcm pf) := by
        show "-fmodule-file=hal=".toList ++ halPcm pf = _
        rw [← List.append_assoc]
        rfl
      rw [h2]
      exact isPrefixOf_app _ _
    rw [List.filter_cons, List.filter_cons, List.filter_nil, hat, hmf]
    simp
  · rfl

/-- C4: the claim (and spec §4.1) demand that `validate` enforce the
capability table with a numeric component-wise version comparison, but both
recipes' `validate` only check `compiler.cppstd` and never consult
`_compilers_minimum_version`: with gcc 9.0 — numerically below both table
minima ("14" for the module variant, "11" for the header-only variant) —
`validate` still succeeds instead of failing with `VersionTooLow`. -/
theorem validate_ignores_compiler_version :
    tableLookup compilersMinimumVersion_v5 "gcc".toList = some "14".toList
    ∧ versionLt "9.0".toList "14".toList = true
    ∧ validate_v5 ⟨"gcc".toList, "9.0".toList, some 23, "Release".toList,
        "Linux".toList, "x86_64".toList⟩ = .ok ()
    ∧ tableLookup compilersMinimumVersion_header "gcc".toList = some "11".toList
    ∧ versionLt "9.0".toList "11".toList = true
    ∧ validate_header ⟨"gcc".toList, "9.0".toList, some 20, "Release".toList,
        "Linux".toList, "x86_64".toList⟩ = .ok () := by
  refine ⟨?_, by decide, rfl, ?_, by decide, rfl⟩ <;> rfl

/-- C3 (amended): on content containing none of the three target substrings,
relocation is the identity and `package_info` completes without raising any
error; in particular no `UnresolvedReference` post-condition failure exists
in the code, whatever paths the final content references. -/
theorem relocate_noop_graceful (pf c : List Char)
    (h1 : containsSub cmakeFilesDir c = false)
    (h2 : containsSub fmoduleOutput c = false)
    (h3 : containsSub xCxxModuleNl c = false) :
    relocate pf c = c
    ∧ package_info_v5 pf (some c) ≠ .error .unresolvedReference
    ∧ finishedOk (package_info_v5 pf (some c)) = true := by
  have hrel : relocate pf c = c := by
    simp only [relocate]
    rw [replaceAll_of_not_contains _ h1, replaceAll_of_not_contains _ h2,
      replaceAll_of_not_contains _ h3]
  refine ⟨hrel, ?_, rfl⟩
  simp [package_info_v5]

theorem relocate_noop_graceful_witness :
    (containsSub cmakeFilesDir c3Content = false
      ∧ containsSub fmoduleOutput c3Content = false
      ∧ containsSub xCxxModuleNl c3Content = false)
    ∧ (relocate pfDemo c3Content = c3Content
      ∧ package_info_v5 pfDemo (some c3Content) ≠ .error .unresolvedReference
      ∧ finishedOk (package_info_v5 pfDemo (some c3Content)) = true) :=
  ⟨⟨by decide, by decide, by decide⟩,
    relocate_noop_graceful pfDemo c3Content (by decide) (by decide) (by decide)⟩

/-- C3 counterexample to the claim as stated: `c3Content` contains none of
the three target substrings and its only path reference (`/no/such/path`)
resolves to nothing inside the package layout, yet the assembly step raises
no `UnresolvedReference` — `package_info` completes normally, because the
source contains no post-condition check at all. -/
theorem relocate_noop_no_error_cex :
    relocate pfDemo c3Content = c3Content
    ∧ package_info_v5 pfDemo (some c3Content)
        ≠ Except.error RecipeError.unresolvedReference := by
  refine ⟨by decide, ?_⟩
  simp [package_info_v5]

/-- C1 (amended): relocation is idempotent on every content whose relocated
image is free of the three target substrings — i.e. exactly when the
substrings targeted by rules 1–3 do not reappear in the rewritten content,
which is the claim's own hypothesis. -/
theorem relocate_idempotent_on_stable (pf c : List Char)
    (h1 : containsSub cmakeFilesDir (relocate pf c) = false)
    (h2 : containsSub fmoduleOutput (relocate pf c) = false)
    (h3 : containsSub xCxxModuleNl (relocate pf c) = false) :
    relocate pf (relocate pf c) = relocate pf c := by
  show replaceAll xCxxModuleNl []
      (replaceAll fmoduleOutput fmoduleFileHal
        (replaceAll cmakeFilesDir (packageCmakeDir pf) (relocate pf c)))
      = relocate pf c
  rw [replaceAll_of_not_contains _ h1, replaceAll_of_not_contains _ h2,
    replaceAll_of_not_contains _ h3]

theorem relocate_idempotent_on_stable_witness :
    (containsSub cmakeFilesDir (relocate pfDemo modMapDemo) = false
      ∧ containsSub fmoduleOutput (relocate pfDemo modMapDemo) = false
      ∧ containsSub xCxxModuleNl (relocate pfDemo modMapDemo) = false)
    ∧ relocate pfDemo (relocate pfDemo modMapDemo) = relocate pfDemo modMapDemo :=
  ⟨⟨by decide, by decide, by decide⟩,
    relocate_idempotent_on_stable pfDemo modMapDemo
      (by decide) (by decide) (by decide)⟩

/-- C1 counterexample: relocation is not idempotent for every content
string.  On `c1CexContent` (`"-x c+-x c++-module\n+-module\n"`), deleting
the directive line splices the remaining text into a fresh
`"-x c++-module\n"`, so a second relocation deletes again and the result
differs. -/
theorem relocate_not_idempotent_cex :
    relocate pfDemo (relocate pfDemo c1CexContent)
      ≠ relocate pfDemo c1CexContent := by
  decide

/-- C10: the stripping rule removes exactly the text `-x c++-module`
immediately followed by a newline: appended to any content without a
trailing newline (e.g. as the last characters of the file) the directive
text survives relocation verbatim (first conjunct, where `b` is the — 
possibly empty — rest of the file, not starting with a newline), while with
the newline the whole directive line is removed (second conjunct). -/
theorem strip_rule_requires_newline (pf a b b' : List Char)
    (hb : b.head? ≠ some '\n') (hpf : pf.head? ≠ some '\n') :
    relocate pf (a ++ (xCxxModule ++ b)) =
      relocate pf a ++ (xCxxModule ++ relocate pf b)
    ∧ relocate pf (a ++ (xCxxModuleNl ++ b')) = relocate pf a ++ relocate pf b' :=
  ⟨relocate_append_dirword pf a b hb hpf, relocate_append_dirline pf a b'⟩

theorem strip_rule_requires_newline_witness :
    (("".toList : List Char).head? ≠ some '\n' ∧ pfDemo.head? ≠ some '\n')
    ∧ (relocate pfDemo ("A\n".toList ++ (xCxxModule ++ "".toList)) =
        relocate pfDemo "A\n".toList ++ (xCxxModule ++ relocate pfDemo "".toList)
      ∧ relocate pfDemo ("A\n".toList ++ (xCxxModuleNl ++ "B\n".toList)) =
        relocate pfDemo "A\n".toList ++ relocate pfDemo "B\n".toList) :=
  ⟨⟨by decide, by decide⟩,
    strip_rule_requires_newline pfDemo "A\n".toList "".toList "B\n".toList
      (by decide) (by decide)⟩

/-- C7: for the header-only variant under a valid compiler/standard pair,
the assembled package places nothing under a `modules` or `lib` directory
(no library file), and every `*.h` / `*.hpp` file of the source include tree
is copied under `include`. -/
theorem package_header_layout (s : BuildSettings)
    (rootFiles includeFiles : List (List Char))
    (_h : validate_header s = .ok ()) :
    (package_header rootFiles includeFiles).filter
        (fun e => e.1 == modulesDir) = []
    ∧ (package_header rootFiles includeFiles).filter
        (fun e => e.1 == libDir) = []
    ∧ ∀ f ∈ includeFiles,
        (".h".toList.isSuffixOf f || ".hpp".toList.isSuffixOf f) = true →
          (includeDir, f) ∈ package_header rootFiles includeFiles := by
  have hdst : ∀ e ∈ package_header rootFiles includeFiles,
      e.1 = licensesDir ∨ e.1 = includeDir := by
    intro e he
    simp only [package_header, List.mem_append, List.mem_map] at he
    rcases he with (⟨f, _, rfl⟩ | ⟨f, _, rfl⟩) | ⟨f, _, rfl⟩
    · exact Or.inl rfl
    · exact Or.inr rfl
    · exact Or.inr rfl
  refine ⟨List.filter_eq_nil_iff.mpr ?_, List.filter_eq_nil_iff.mpr ?_, ?_⟩
  · intro e he hmod
    have heq := beq_iff_eq.mp hmod
    rcases hdst e he with h1 | h1 <;> rw [h1] at heq
    · exact absurd heq (by decide)
    · exact absurd heq (by decide)
  · intro e he hlib
    have heq := beq_iff_eq.mp hlib
    rcases hdst e he with h1 | h1 <;> rw [h1] at heq
    · exact absurd heq (by decide)
    · exact absurd heq (by decide)
  · intro f hf hsuf
    simp only [package_header, List.mem_append]
    rcases Bool.or_eq_true _ _ |>.mp hsuf with hh | hh
    · exact Or.inl (Or.inr (List.mem_map.mpr
        ⟨f, List.mem_filter.mpr ⟨hf, hh⟩, rfl⟩))
    · exact Or.inr (List.mem_map.mpr ⟨f, List.mem_filter.mpr ⟨hf, hh⟩, rfl⟩)

theorem package_header_layout_witness :
    validate_header ⟨"gcc".toList, "11".toList, some 20, "Release".toList,
        "Linux".toList, "x86_64".toList⟩ = .ok ()
    ∧ ((package_header ["LICENSE".toList] ["libhal/pwm.hpp".toList]).filter
          (fun e => e.1 == modulesDir) = []
      ∧ (package_header ["LICENSE".toList] ["libhal/pwm.hpp".toList]).filter
          (fun e => e.1 == libDir) = []
      ∧ ∀ f ∈ ["libhal/pwm.hpp".toList],
          (".h".toList.isSuffixOf f || ".hpp".toList.isSuffixOf f) = true →
            (includeDir, f) ∈ package_header ["LICENSE".toList]
              ["libhal/pwm.hpp".toList]) :=
  ⟨rfl, package_header_layout
    ⟨"gcc".toList, "11".toList, some 20, "Release".toList,
      "Linux".toList, "x86_64".toList⟩
    ["LICENSE".toList] ["libhal/pwm.hpp".toList] rfl⟩

/-- C2 counterexample to the claim as stated: `c2CexContent` contains the
build-tree substring, the module-producing flag and the directive line, yet
its relocated output still contains `CMakeFiles/libhal.dir` — deleting the
directive line splices `CMakeFiles/libhal` and `.dir` together. -/
theorem relocate_roundtrip_cex :
    containsSub cmakeFilesDir c2CexContent = true
    ∧ containsSub fmoduleOutput c2CexContent = true
    ∧ containsSub xCxxModuleNl c2CexContent = true
    ∧ containsSub cmakeFilesDir (relocate pfDemo c2CexContent) = true := by
  refine ⟨by decide, by decide, by decide, by decide⟩

/-- C2 (amended): the round-trip guarantees hold for module-map content
assembled from the three target substrings and insulated filler segments
(segments containing no target substring and not ending in a nonempty first
part of one — which is what rules out the splicing of the counterexample),
with a benign package folder: the input contains all three substrings, and
the relocated output has zero occurrences of the build-tree substring,
contains the module-consuming flag in its place, and no longer contains the
compile-only directive line. -/
theorem relocate_roundtrip_insulated (pf a b d e c : List Char)
    (hc : c = a ++ (xCxxModuleNl ++ (b ++ (fmoduleOutput ++
      (d ++ (cmakeFilesDir ++ e))))))
    (hpf : goodPackageFolder pf) (ha : insulated a) (hb : insulated b)
    (hd : insulated d) (he : insulated e) :
    containsSub cmakeFilesDir c = true
    ∧ containsSub fmoduleOutput c = true
    ∧ containsSub xCxxModuleNl c = true
    ∧ containsSub cmakeFilesDir (relocate pf c) = false
    ∧ containsSub fmoduleFileHal (relocate pf c) = true
    ∧ containsSub xCxxModuleNl (relocate pf c) = false := by
  subst hc
  have hout : relocate pf (a ++ (xCxxModuleNl ++ (b ++ (fmoduleOutput ++
      (d ++ (cmakeFilesDir ++ e)))))) =
      a ++ (b ++ (fmoduleFileHal ++ (d ++ (packageCmakeDir pf ++ e)))) := by
    simp only [relocate]
    rw [replaceAll_left (packageCmakeDir pf) _ ha.1,
      replaceAll_left (packageCmakeDir pf) _ insul_cmake_dirline,
      replaceAll_left (packageCmakeDir pf) _ hb.1,
      replaceAll_left (packageCmakeDir pf) _ insul_cmake_fmo,
      replaceAll_left (packageCmakeDir pf) _ hd.1,
      replaceAll_fire (packageCmakeDir pf) e (by decide),
      replaceAll_of_not_contains (packageCmakeDir pf) he.1.1]
    rw [replaceAll_left fmoduleFileHal _ ha.2.1,
      replaceAll_left fmoduleFileHal _ insul_fmo_dirline,
      replaceAll_left fmoduleFileHal _ hb.2.1,
      replaceAll_fire fmoduleFileHal _ (by decide)]
    rw [replaceAll_of_not_contains fmoduleFileHal
      (contains_append_insul hd.2.1
        (contains_append_insul hpf.2.1 he.2.1.1))]
    rw [replaceAll_left [] _ ha.2.2,
      replaceAll_fire [] _ (by decide)]
    rw [replaceAll_of_not_contains []
      (contains_append_insul hb.2.2
        (contains_append_insul insul_dirline_halflag
          (contains_append_insul hd.2.2
            (contains_append_insul hpf.2.2 he.2.2.1))))]
    rw [List.nil_append]
  refine ⟨?_, ?_, ?_, ?_, ?_, ?_⟩
  · have hshape : a ++ (xCxxModuleNl ++ (b ++ (fmoduleOutput ++
        (d ++ (cmakeFilesDir ++ e))))) =
        (a ++ (xCxxModuleNl ++ (b ++ (fmoduleOutput ++ d)))) ++
          (cmakeFilesDir ++ e) := by
      simp [List.append_assoc]
    rw [hshape]
    exact containsSub_middle _ _ _
  · have hshape : a ++ (xCxxModuleNl ++ (b ++ (fmoduleOutput ++
        (d ++ (cmakeFilesDir ++ e))))) =
        (a ++ (xCxxModuleNl ++ b)) ++ (fmoduleOutput ++
          (d ++ (cmakeFilesDir ++ e))) := by
      simp [List.append_assoc]
    rw [hshape]
    exact containsSub_middle _ _ _
  · exact containsSub_middle _ _ _
  · rw [hout]
    exact contains_append_insul ha.1
      (contains_append_insul hb.1
        (contains_append_insul insul_cmake_halflag
          (contains_append_insul hd.1
            (contains_append_insul hpf.1 he.1.1))))
  · rw [hout]
    have hshape : a ++ (b ++ (fmoduleFileHal ++
        (d ++ (packageCmakeDir pf ++ e)))) =
        (a ++ b) ++ (fmoduleFileHal ++ (d ++ (packageCmakeDir pf ++ e))) := by
      simp [List.append_assoc]
    rw [hshape]
    exact containsSub_middle _ _ _
  · rw [hout]
    exact contains_append_insul ha.2.2
      (contains_append_insul hb.2.2
        (contains_append_insul insul_dirline_halflag
          (contains_append_insul hd.2.2
            (contains_append_insul hpf.2.2 he.2.2.1))))

theorem relocate_roundtrip_insulated_witness :
    (goodPackageFolder pfDemo ∧ insulated ([] : List Char)
      ∧ insulated "=".toList ∧ insulated "/hal.pcm\n".toList)
    ∧ (containsSub cmakeFilesDir ([] ++ (xCxxModuleNl ++ ([] ++ (fmoduleOutput ++
          ("=".toList ++ (cmakeFilesDir ++ "/hal.pcm\n".toList)))))) = true
      ∧ containsSub fmoduleOutput ([] ++ (xCxxModuleNl ++ ([] ++ (fmoduleOutput ++
          ("=".toList ++ (cmakeFilesDir ++ "/hal.pcm\n".toList)))))) = true
      ∧ containsSub xCxxModuleNl ([] ++ (xCxxModuleNl ++ ([] ++ (fmoduleOutput ++
          ("=".toList ++ (cmakeFilesDir ++ "/hal.pcm\n".toList)))))) = true
      ∧ containsSub cmakeFilesDir (relocate pfDemo
          ([] ++ (xCxxModuleNl ++ ([] ++ (fmoduleOutput ++
            ("=".toList ++ (cmakeFilesDir ++ "/hal.pcm\n".toList))))))) = false
      ∧ containsSub fmoduleFileHal (relocate pfDemo
          ([] ++ (xCxxModuleNl ++ ([] ++ (fmoduleOutput ++
            ("=".toList ++ (cmakeFilesDir ++ "/hal.pcm\n".toList))))))) = true
      ∧ containsSub xCxxModuleNl (relocate pfDemo
          ([] ++ (xCxxModuleNl ++ ([] ++ (fmoduleOutput ++
            ("=".toList ++ (cmakeFilesDir ++ "/hal.pcm\n".toList))))))) = false) := by
  refine ⟨⟨?_, ?_, ?_, ?_⟩, ?_⟩
  · exact ⟨⟨by decide, by decide⟩, ⟨by decide, by decide⟩, ⟨by decide, by decide⟩⟩
  · exact ⟨⟨by decide, by decide⟩, ⟨by decide, by decide⟩, ⟨by decide, by decide⟩⟩
  · exact ⟨⟨by decide, by decide⟩, ⟨by decide, by decide⟩, ⟨by decide, by decide⟩⟩
  · exact ⟨⟨by decide, by decide⟩, ⟨by decide, by decide⟩, ⟨by decide, by decide⟩⟩
  · exact relocate_roundtrip_insulated pfDemo [] [] "=".toList "/hal.pcm\n".toList
      _ rfl
      ⟨⟨by decide, by decide⟩, ⟨by decide, by decide⟩, ⟨by decide, by decide⟩⟩
      ⟨⟨by decide, by decide⟩, ⟨by decide, by decide⟩, ⟨by decide, by decide⟩⟩
      ⟨⟨by decide, by decide⟩, ⟨by decide, by decide⟩, ⟨by decide, by decide⟩⟩
      ⟨⟨by decide, by decide⟩, ⟨by decide, by decide⟩, ⟨by decide, by decide⟩⟩
      ⟨⟨by decide, by decide⟩, ⟨by decide, by decide⟩, ⟨by decide, by decide⟩⟩
